/- Verification of the in-memory roster manager (assignment.py).

   The Python source is shallowly embedded: the store (`self.players`) is an
   explicit `List PlayerRecord`, console output is returned as an explicit
   `String` component, Python `int` is `Int`, and the exact fractions computed
   by `statistics.mean` / `statistics.median` (which Python converts to float
   at the very end) are modelled as `Rat`. -/
import Mathlib

/-- One roster entry: mirrors class `PlayerRecord` (name, team, goals, assists). -/
structure PlayerRecord where
  name : String
  team : String
  goals : Int
  assists : Int
deriving DecidableEq, Repr

/-- Mirrors the Python method `PlayerRecord.edit`.  A text field is updated
only when the argument is truthy (`if name:` — skipped for `None` and for the
empty string); a numeric field is updated whenever the argument is not `None`
(`if goals is not None:` — zero is applied). -/
def PlayerRecord.edit (r : PlayerRecord) (name team : Option String)
    (goals assists : Option Int) : PlayerRecord :=
  { name := match name with
      | some s => if s = "" then r.name else s
      | none => r.name
    team := match team with
      | some s => if s = "" then r.team else s
      | none => r.team
    goals := match goals with
      | some g => g
      | none => r.goals
    assists := match assists with
      | some a => a
      | none => r.assists }

/-- In-place update of the element at a position (Python `self.players[index].edit(...)`). -/
def listModify {α : Type} (f : α → α) : Nat → List α → List α
  | _, [] => []
  | 0, a :: as => f a :: as
  | n + 1, a :: as => a :: listModify f n as

/-- Total list indexing with a default (used to model `sorted_data[i]`). -/
def listGetD {α : Type} : List α → Nat → α → α
  | [], _, d => d
  | a :: _, 0, _ => a
  | _ :: as, n + 1, d => listGetD as n d

/-- Embeds `PlayerManager.add_player`: appends and prints a success message. -/
def add_player (players : List PlayerRecord) (p : PlayerRecord) :
    List PlayerRecord × String :=
  (players ++ [p], "Player added successfully.")

/-- Embeds `PlayerManager.edit_player`: bound-checks the index, then calls
`PlayerRecord.edit` on the record in place, passing every field of the
candidate record; out of range it only prints "Invalid index.". -/
def edit_player (players : List PlayerRecord) (index : Int) (up : PlayerRecord) :
    List PlayerRecord × String :=
  if 0 ≤ index ∧ index < (players.length : Int) then
    (listModify
      (fun r => r.edit (some up.name) (some up.team) (some up.goals) (some up.assists))
      index.toNat players,
     "Player updated successfully.")
  else
    (players, "Invalid index.")

/-- Embeds `PlayerManager.delete_player`: bound-checks, then `del self.players[index]`;
out of range it only prints "Invalid index.". -/
def delete_player (players : List PlayerRecord) (index : Int) :
    List PlayerRecord × String :=
  if 0 ≤ index ∧ index < (players.length : Int) then
    (players.eraseIdx index.toNat, "Player deleted successfully.")
  else
    (players, "Invalid index.")

/-- The spec's description of `remove`: fails with a distinguishable
`InvalidIndex` condition raised to the caller when the index is out of the
valid range, otherwise deletes.  Stated as an `Except` so that "raises" is an
error value visible to the caller, for comparison with `delete_player`. -/
def specRemove (players : List PlayerRecord) (index : Int) :
    Except String (List PlayerRecord) :=
  if 0 ≤ index ∧ index < (players.length : Int) then
    .ok (players.eraseIdx index.toNat)
  else
    .error "InvalidIndex"

/-- Stable insertion used by the sort model: the new element goes in front of
the first element it compares `le` to, hence before later-arriving ties. -/
def insertLe {α : Type} (le : α → α → Bool) (x : α) : List α → List α
  | [] => [x]
  | y :: ys => if le x y then x :: y :: ys else y :: insertLe le x ys

/-- Stable sort (insertion sort).  Python's `list.sort` is a stable sort; any
stable sort yields the same list, so this models `sort(key=..., reverse=...)`. -/
def sortLe {α : Type} (le : α → α → Bool) : List α → List α
  | [] => []
  | x :: xs => insertLe le x (sortLe le xs)

/-- Python `statistics.mean` on integers: the exact fraction sum/count. -/
def pyMean (l : List Int) : Rat :=
  (l.sum : Rat) / (l.length : Rat)

/-- Python `statistics.median` on integers: sort; odd count takes the middle element,
even count averages the two central elements.  (The out-of-range defaults of
`listGetD` are never hit for nonempty input.) -/
def pyMedian (l : List Int) : Rat :=
  let s := sortLe (fun a b => decide (a ≤ b)) l
  let n := s.length
  if n % 2 = 1 then ((listGetD s (n / 2) 0 : Int) : Rat)
  else ((listGetD s (n / 2 - 1) 0 + listGetD s (n / 2) 0 : Int) : Rat) / 2

/-- Embeds `PlayerManager.calculate_average_goals`: mean of goals when the list is
nonempty, else `0.0`. -/
def calculate_average_goals (players : List PlayerRecord) : Rat :=
  if players = [] then 0 else pyMean (players.map (·.goals))

/-- Embeds `PlayerManager.calculate_median_assists`: median of assists when the list
is nonempty, else `0.0`. -/
def calculate_median_assists (players : List PlayerRecord) : Rat :=
  if players = [] then 0 else pyMedian (players.map (·.assists))

/-- Embeds `PlayerManager.filter_by_team`: records whose team equals the argument
exactly, in stored order. -/
def filter_by_team (players : List PlayerRecord) (team : String) :
    List PlayerRecord :=
  players.filter (fun p => p.team = team)

/-- Embeds `PlayerManager.filter_by_goal_range`: keeps records with
`min_goals <= goals <= max_goals`, then stable-sorts the new list by goals,
descending when `ascending` is false (`reverse=not ascending`).  The stored
list is never assigned to, so the call cannot mutate the store. -/
def filter_by_goal_range (players : List PlayerRecord)
    (min_goals max_goals : Int) (ascending : Bool) : List PlayerRecord :=
  sortLe
    (fun a b => if ascending then decide (a.goals ≤ b.goals)
                else decide (b.goals ≤ a.goals))
    (players.filter (fun p => decide (min_goals ≤ p.goals) && decide (p.goals ≤ max_goals)))

/-- The interpreter-wide state relevant to `SingletonMeta`: either no
`PlayerManager` has been constructed yet, or the sole instance exists and its
`players` list has the recorded contents.  (The heap object is identified with
its one mutable field.) -/
structure PyWorld where
  pmInstance : Option (List PlayerRecord)
deriving DecidableEq

/-- Calling `PlayerManager()` under `SingletonMeta.__call__`: on the first call
`super().__call__()` runs `__init__` (fresh empty list) and caches the
instance; on every later call the cached instance is returned and `__init__`
does not run.  Returns (new world, players list of the returned instance). -/
def constructPlayerManager (w : PyWorld) : PyWorld × List PlayerRecord :=
  match w.pmInstance with
  | none => (⟨some []⟩, [])
  | some ps => (w, ps)

/-- Adding a record through any reference to the singleton updates the single
shared players list. -/
def worldAdd (w : PyWorld) (p : PlayerRecord) : PyWorld :=
  match w.pmInstance with
  | none => w
  | some ps => ⟨some (add_player ps p).1⟩

/- ===== TabularCodec: the `csv` module (default "excel" dialect) =====
   delimiter `,`, quotechar `"`, doublequote, QUOTE_MINIMAL, lineterminator
   CRLF.  File contents are modelled as `List Char`. -/

/-- QUOTE_MINIMAL: a field is quoted iff it contains the delimiter, the quote
character, or a lineterminator character. -/
def needsQuote (f : List Char) : Bool :=
  f.any fun c => c = ',' || c = '"' || c = '\r' || c = '\n'

/-- With `doublequote=True`, each quote character in the field is doubled. -/
def escapeQuotes : List Char → List Char
  | [] => []
  | c :: cs => if c = '"' then '"' :: '"' :: escapeQuotes cs else c :: escapeQuotes cs

/-- Encoding of one field under QUOTE_MINIMAL. -/
def encodeField (f : List Char) : List Char :=
  if needsQuote f then '"' :: (escapeQuotes f ++ ['"']) else f

/-- Comma-join of encoded fields. -/
def joinComma : List (List Char) → List Char
  | [] => []
  | [f] => f
  | f :: f2 :: fs => f ++ ',' :: joinComma (f2 :: fs)

/-- One output row: fields joined by the delimiter and terminated by CRLF.
A row consisting of a single empty field is written as `""` (the csv writer
quotes it so the row is not read back as a blank line). -/
def encodeRow (fs : List (List Char)) : List Char :=
  if fs = [[]] then ['"', '"', '\r', '\n']
  else joinComma (fs.map encodeField) ++ ['\r', '\n']

/-- Whole-file encoding: the written rows in order. -/
def csvWriteRows : List (List (List Char)) → List Char
  | [] => []
  | r :: rs => encodeRow r ++ csvWriteRows rs

/-- String-level writer interface. -/
def csvWrite (rows : List (List String)) : List Char :=
  csvWriteRows (rows.map (fun r => r.map String.data))

/-- Parser states of the csv reader's state machine.  `ready` covers both
START_RECORD and EAT_CRNL: the file is opened with `newline=''`, so a line
chunk always ends right after its CR/LF characters and the two Python states
behave identically on the resulting stream. -/
inductive CsvSt
  | ready
  | startFld
  | inFld
  | inQuoted
  | quoteInQuoted
deriving DecidableEq, Repr

/-- The csv reader: consumes one character per step.  Arguments: input, state,
current field, current row, completed rows.  The `Bool` is true when the input
ends inside a quoted field, where the Python reader raises
`csv.Error("unexpected end of data")` after having yielded all complete rows. -/
def parseAux : List Char → CsvSt → List Char → List String → List (List String) →
    List (List String) × Bool
  | [], .ready, _, _, acc => (acc, false)
  | [], .startFld, field, row, acc => (acc ++ [row ++ [String.mk field]], false)
  | [], .inFld, field, row, acc => (acc ++ [row ++ [String.mk field]], false)
  | [], .inQuoted, _, _, acc => (acc, true)
  | [], .quoteInQuoted, field, row, acc => (acc ++ [row ++ [String.mk field]], false)
  | c :: cs, .ready, _, _, acc =>
    if c = '\r' ∨ c = '\n' then parseAux cs .ready [] [] acc
    else if c = ',' then parseAux cs .startFld [] [""] acc
    else if c = '"' then parseAux cs .inQuoted [] [] acc
    else parseAux cs .inFld [c] [] acc
  | c :: cs, .startFld, _, row, acc =>
    if c = '\r' ∨ c = '\n' then parseAux cs .ready [] [] (acc ++ [row ++ [""]])
    else if c = ',' then parseAux cs .startFld [] (row ++ [""]) acc
    else if c = '"' then parseAux cs .inQuoted [] row acc
    else parseAux cs .inFld [c] row acc
  | c :: cs, .inFld, field, row, acc =>
    if c = '\r' ∨ c = '\n' then
      parseAux cs .ready [] [] (acc ++ [row ++ [String.mk field]])
    else if c = ',' then parseAux cs .startFld [] (row ++ [String.mk field]) acc
    else parseAux cs .inFld (field ++ [c]) row acc
  | c :: cs, .inQuoted, field, row, acc =>
    if c = '"' then parseAux cs .quoteInQuoted field row acc
    else parseAux cs .inQuoted (field ++ [c]) row acc
  | c :: cs, .quoteInQuoted, field, row, acc =>
    if c = '"' then parseAux cs .inQuoted (field ++ ['"']) row acc
    else if c = ',' then parseAux cs .startFld [] (row ++ [String.mk field]) acc
    else if c = '\r' ∨ c = '\n' then
      parseAux cs .ready [] [] (acc ++ [row ++ [String.mk field]])
    else parseAux cs .inFld (field ++ [c]) row acc

/-- Parse a whole file into rows (plus the end-inside-quotes error flag). -/
def csvParse (cs : List Char) : List (List String) × Bool :=
  parseAux cs .ready [] [] []

/- ===== Python `str(int)` and `int(str)` ===== -/

/-- Decimal digits of a natural number, most significant first (`str` on a
non-negative int). -/
def natDigits (n : Nat) : List Char :=
  if h : n < 10 then [Char.ofNat (48 + n)]
  else natDigits (n / 10) ++ [Char.ofNat (48 + n % 10)]
decreasing_by exact Nat.div_lt_self (by omega) (by omega)

/-- Python `str` on an int: optional minus sign then decimal digits. -/
def intToChars (i : Int) : List Char :=
  if i < 0 then '-' :: natDigits i.natAbs else natDigits i.natAbs

/-- Whitespace stripped by Python `int(str)` (the ASCII cases). -/
def isPyWs (c : Char) : Bool :=
  c = ' ' || c = '\t' || c = '\n' || c = '\r' || c = '\x0b' || c = '\x0c'

/-- Strip whitespace from both ends. -/
def stripWs (l : List Char) : List Char :=
  ((l.dropWhile isPyWs).reverse.dropWhile isPyWs).reverse

/-- Value of one ASCII decimal digit. -/
def digitVal (c : Char) : Option Nat :=
  if 48 ≤ c.toNat ∧ c.toNat ≤ 57 then some (c.toNat - 48) else none

/-- Digits after the first: Python's integer literal grammar allows a single
underscore between two digits. -/
def digitsAux (acc : Nat) : List Char → Option Nat
  | [] => some acc
  | c :: cs =>
    if c = '_' then
      match cs with
      | [] => none
      | c2 :: cs2 =>
        match digitVal c2 with
        | some d => digitsAux (acc * 10 + d) cs2
        | none => none
    else
      match digitVal c with
      | some d => digitsAux (acc * 10 + d) cs
      | none => none

/-- A run of digits (first character must be a digit). -/
def digitsRun : List Char → Option Nat
  | [] => none
  | c :: cs =>
    match digitVal c with
    | some d => digitsAux d cs
    | none => none

/-- Python `int(str)`: strip whitespace, optional sign, decimal digits (with
the underscore rule).  Returns `none` where Python raises `ValueError`.  (Only
ASCII digits/whitespace are modelled; the csv writer emits nothing else.) -/
def pyIntChars (s : List Char) : Option Int :=
  match stripWs s with
  | [] => none
  | c :: cs =>
    if c = '+' then (digitsRun cs).map (fun n => Int.ofNat n)
    else if c = '-' then (digitsRun cs).map (fun n => -Int.ofNat n)
    else (digitsRun (c :: cs)).map (fun n => Int.ofNat n)

/-- Python `int` applied to a Lean-level string. -/
def pyIntStr (s : String) : Option Int :=
  pyIntChars s.data

/- ===== DictReader / DictWriter and the manager's save/load ===== -/

/-- The header row written by `save_to_csv`. -/
def headerFields : List String := ["Name", "Team", "Goals", "Assists"]

/-- The csv row `DictWriter` emits for one record: the four values in
fieldnames order, integers rendered by `str`. -/
def recordRow (p : PlayerRecord) : List String :=
  [p.name, p.team, String.mk (intToChars p.goals), String.mk (intToChars p.assists)]

/-- Embeds `PlayerManager.save_to_csv`: header row then one row per record, in stored
order, overwriting the destination. -/
def save_to_csv (players : List PlayerRecord) : List Char :=
  csvWrite (headerFields :: players.map recordRow)

/-- The dict `DictReader` builds for one data row: each header name is bound
in order to the value at its position, or to `None` (`restval`) when the row
is shorter; a duplicated header name keeps its last binding.  Extra row values
beyond the header go under the `restkey` (not a string key) and are dropped. -/
def dictCells : List String → List String → List (String × Option String)
  | [], _ => []
  | h :: hs, [] => (h, none) :: dictCells hs []
  | h :: hs, v :: vs => (h, some v) :: dictCells hs vs

/-- Last binding of a key in the cell list (`dict` semantics: later wins). -/
def lookupLast (k : String) : List (String × Option String) → Option (Option String)
  | [] => none
  | (k', v) :: rest =>
    match lookupLast k rest with
    | some r => some r
    | none => if k' = k then some v else none

/-- Reading `row[key]` on a `DictReader` row: `none` is a `KeyError`. -/
def dictGet (header row : List String) (k : String) : Option (Option String) :=
  lookupLast k (dictCells header row)

/-- The failure modes of `load_from_csv`, as the exceptions Python raises. -/
inductive LoadErr
  | keyError
  | typeError
  | valueError
  | noneCell
  | csvError
deriving DecidableEq, Repr

/-- Reading `row[k]` for a text field.  A missing header name is a `KeyError`.  A
`restval` `None` cell is reported as `noneCell`: Python would construct the
record with the `None` object in a text field (only reachable when the header
lists `Goals`/`Assists` before a text column and the data row is short); the
record fields are modelled as strings, so the model reports such files as load
failures — no claim involves one. -/
def getStrCell (header row : List String) (k : String) : Except LoadErr String :=
  match dictGet header row k with
  | none => .error .keyError
  | some none => .error .noneCell
  | some (some s) => .ok s

/-- Evaluating `int(row[k])`: a missing header name is a `KeyError`, `int(None)` is a
`TypeError`, an unparseable string is a `ValueError`. -/
def getIntCell (header row : List String) (k : String) : Except LoadErr Int :=
  match dictGet header row k with
  | none => .error .keyError
  | some none => .error .typeError
  | some (some s) =>
    match pyIntStr s with
    | some n => .ok n
    | none => .error .valueError

/-- One data row turned into a `PlayerRecord`; the cells are read in the
argument order of the Python constructor call, and the first failing cell
aborts the row with its exception. -/
def parseRowRec (header row : List String) : Except LoadErr PlayerRecord :=
  match getStrCell header row "Name" with
  | .error e => .error e
  | .ok name =>
    match getStrCell header row "Team" with
    | .error e => .error e
    | .ok team =>
      match getIntCell header row "Goals" with
      | .error e => .error e
      | .ok goals =>
        match getIntCell header row "Assists" with
        | .error e => .error e
        | .ok assists => .ok ⟨name, team, goals, assists⟩

/-- The loader's row loop: rows are appended one at a time; `DictReader` skips
rows parsed as `[]`; the first failing row stops the loop with the store
holding exactly the records built so far. -/
def loadRowsAux (header : List String) :
    List (List String) → List PlayerRecord → List PlayerRecord × Option LoadErr
  | [], acc => (acc, none)
  | row :: rows, acc =>
    if row = [] then loadRowsAux header rows acc
    else
      match parseRowRec header row with
      | .ok p => loadRowsAux header rows (acc ++ [p])
      | .error e => (acc, some e)

/-- Embeds `PlayerManager.load_from_csv`: the statement `self.players = []` runs first, so the
prior contents are discarded unconditionally; then rows are parsed and
appended.  The first row is the `DictReader` header (an empty file loads an
empty store).  The returned pair is (store contents after the call, error
signalled if any); an end-of-data error inside a quoted field surfaces after
all complete rows were consumed. -/
def load_from_csv (_prior : List PlayerRecord) (file : List Char) :
    List PlayerRecord × Option LoadErr :=
  match csvParse file with
  | (rows, endedInQuote) =>
    match rows with
    | [] => ([], if endedInQuote then some .csvError else none)
    | header :: dataRows =>
      match loadRowsAux header dataRows [] with
      | (ps, some e) => (ps, some e)
      | (ps, none) => (ps, if endedInQuote then some .csvError else none)

/- ===== Helper lemmas ===== -/

theorem listModify_length {α : Type} (f : α → α) (n : Nat) (l : List α) :
    (listModify f n l).length = l.length := by
  induction l generalizing n with
  | nil => cases n <;> rfl
  | cons a as ih =>
    cases n with
    | zero => rfl
    | succ m => simp [listModify, ih]

theorem listModify_get?_ne {α : Type} (f : α → α) (n j : Nat) (l : List α)
    (h : j ≠ n) : (listModify f n l).get? j = l.get? j := by
  induction l generalizing n j with
  | nil => cases n <;> rfl
  | cons a as ih =>
    cases n with
    | zero =>
      cases j with
      | zero => exact absurd rfl h
      | succ jj => simp [listModify]
    | succ m =>
      cases j with
      | zero => simp [listModify]
      | succ jj =>
        simp only [listModify, List.get?]
        exact ih m jj (by omega)

theorem listModify_get?_eq {α : Type} (f : α → α) (n : Nat) (l : List α) (a : α)
    (h : l.get? n = some a) : (listModify f n l).get? n = some (f a) := by
  induction l generalizing n with
  | nil => simp [List.get?] at h
  | cons x xs ih =>
    cases n with
    | zero =>
      simp only [List.get?] at h
      cases h
      rfl
    | succ m =>
      simp only [List.get?] at h
      simp only [listModify, List.get?]
      exact ih m h

theorem eraseIdx_append_length {α : Type} (l : List α) (x : α) :
    (l ++ [x]).eraseIdx l.length = l := by
  induction l with
  | nil => rfl
  | cons a as ih => simp [List.eraseIdx, ih]

/- ===== Stable sort lemmas ===== -/

theorem insertLe_perm {α : Type} (le : α → α → Bool) (x : α) (l : List α) :
    (insertLe le x l).Perm (x :: l) := by
  induction l with
  | nil => exact List.Perm.refl _
  | cons y ys ih =>
    by_cases h : le x y = true
    · simp only [insertLe, if_pos h]
      exact List.Perm.refl _
    · simp only [insertLe, if_neg h]
      exact (ih.cons y).trans (List.Perm.swap x y ys)

theorem sortLe_perm {α : Type} (le : α → α → Bool) (l : List α) :
    (sortLe le l).Perm l := by
  induction l with
  | nil => exact List.Perm.refl _
  | cons x xs ih =>
    simp only [sortLe]
    exact (insertLe_perm le x _).trans (ih.cons x)

theorem insertLe_pairwise {α : Type} {le : α → α → Bool}
    (htot : ∀ a b, le a b = true ∨ le b a = true)
    (htrans : ∀ a b c, le a b = true → le b c = true → le a c = true)
    (x : α) {l : List α} (hl : l.Pairwise (fun a b => le a b = true)) :
    (insertLe le x l).Pairwise (fun a b => le a b = true) := by
  induction l with
  | nil => simp [insertLe]
  | cons y ys ih =>
    rcases List.pairwise_cons.1 hl with ⟨hy, hys⟩
    by_cases h : le x y = true
    · simp only [insertLe, if_pos h]
      refine List.pairwise_cons.2 ⟨?_, hl⟩
      intro z hz
      rcases List.mem_cons.1 hz with rfl | hz
      · exact h
      · exact htrans x y z h (hy z hz)
    · simp only [insertLe, if_neg h]
      refine List.pairwise_cons.2 ⟨?_, ih hys⟩
      intro z hz
      have hz' : z = x ∨ z ∈ ys := by
        simpa using (insertLe_perm le x ys).mem_iff.1 hz
      rcases hz' with rfl | hz'
      · rcases htot z y with h1 | h1
        · exact absurd h1 h
        · exact h1
      · exact hy z hz'

theorem sortLe_pairwise {α : Type} {le : α → α → Bool}
    (htot : ∀ a b, le a b = true ∨ le b a = true)
    (htrans : ∀ a b c, le a b = true → le b c = true → le a c = true)
    (l : List α) : (sortLe le l).Pairwise (fun a b => le a b = true) := by
  induction l with
  | nil => simp [sortLe]
  | cons x xs ih => exact insertLe_pairwise htot htrans x ih

theorem insertLe_filter {α : Type} {le : α → α → Bool} {p : α → Bool}
    (hp : ∀ a b, p a = true → p b = true → le a b = true) (x : α) (l : List α) :
    (insertLe le x l).filter p = if p x then x :: l.filter p else l.filter p := by
  induction l with
  | nil => cases hx : p x <;> simp [insertLe, List.filter, hx]
  | cons y ys ih =>
    by_cases h : le x y = true
    · simp only [insertLe, if_pos h]
      by_cases hx : p x = true
      · simp [List.filter_cons, hx]
      · simp [List.filter_cons, hx]
    · simp only [insertLe, if_neg h]
      by_cases hx : p x = true
      · have hy : p y = false := by
          cases hpy : p y
          · rfl
          · exact absurd (hp x y hx hpy) h
        simp [List.filter_cons, hy, ih, hx]
      · by_cases hy : p y = true
        · simp [List.filter_cons, hy, ih, hx]
        · simp [List.filter_cons, hy, ih, hx]

theorem sortLe_filter {α : Type} {le : α → α → Bool} {p : α → Bool}
    (hp : ∀ a b, p a = true → p b = true → le a b = true) (l : List α) :
    (sortLe le l).filter p = l.filter p := by
  induction l with
  | nil => rfl
  | cons x xs ih =>
    simp only [sortLe]
    rw [insertLe_filter hp]
    by_cases hx : p x = true
    · simp [List.filter_cons, hx, ih]
    · simp [List.filter_cons, hx, ih]

/- ===== Claim theorems: store operations ===== -/

/-- C2 counterexample.  On a 2-element store, `remove(5)` does not raise any
invalid-index condition to the caller: `delete_player` returns normally with
the store unchanged and the console message "Invalid index.", whereas the
claim's raising semantics (`specRemove`) would yield an `InvalidIndex` error
value.  The store indeed remains length 2. -/
theorem C2_no_raise_counterexample :
    delete_player [⟨"Alice", "Reds", 3, 1⟩, ⟨"Bob", "Blues", 5, 2⟩] 5
      = ([⟨"Alice", "Reds", 3, 1⟩, ⟨"Bob", "Blues", 5, 2⟩], "Invalid index.") ∧
    specRemove [⟨"Alice", "Reds", 3, 1⟩, ⟨"Bob", "Blues", 5, 2⟩] 5
      = .error "InvalidIndex" ∧
    ([⟨"Alice", "Reds", 3, 1⟩, ⟨"Bob", "Blues", 5, 2⟩] : List PlayerRecord).length = 2 := by
  refine ⟨by decide, ?_, rfl⟩
  simp only [specRemove]
  rw [if_neg (by decide)]

/-- C2 (amended): for every out-of-range index, `edit_player` and
`delete_player` leave the store's sequence completely unchanged (same length,
records and order) and report the condition only by printing "Invalid index."
and returning normally — nothing is raised to the caller. -/
theorem C2_invalid_index_unchanged (players : List PlayerRecord) (index : Int)
    (up : PlayerRecord) (h : ¬(0 ≤ index ∧ index < (players.length : Int))) :
    edit_player players index up = (players, "Invalid index.") ∧
    delete_player players index = (players, "Invalid index.") := by
  constructor <;> simp [edit_player, delete_player, h]

/-- Witness for C2: `remove(5)` on the concrete 2-element store. -/
theorem C2_invalid_index_unchanged_witness :
    ¬((0 : Int) ≤ 5 ∧ (5 : Int) <
      (([⟨"Alice", "Reds", 3, 1⟩, ⟨"Bob", "Blues", 5, 2⟩] : List PlayerRecord).length : Int)) ∧
    delete_player [⟨"Alice", "Reds", 3, 1⟩, ⟨"Bob", "Blues", 5, 2⟩] 5
      = ([⟨"Alice", "Reds", 3, 1⟩, ⟨"Bob", "Blues", 5, 2⟩], "Invalid index.") :=
  ⟨by decide,
   (C2_invalid_index_unchanged [⟨"Alice", "Reds", 3, 1⟩, ⟨"Bob", "Blues", 5, 2⟩] 5
      ⟨"X", "Y", 0, 0⟩ (by decide)).2⟩

/-- C3: for a valid index, `update` keeps the length, leaves every record at
another index unchanged, and replaces the record at the index by the in-place
edit of the old record: name/team are overwritten exactly when the patch value
is non-empty, goals/assists are always overwritten with the patch's values
(the patch record always provides them; zero is applied like any value). -/
theorem C3_update_semantics (players : List PlayerRecord) (index : Int)
    (up : PlayerRecord) (h : 0 ≤ index ∧ index < (players.length : Int)) :
    (edit_player players index up).1.length = players.length ∧
    (∀ j : Nat, j ≠ index.toNat →
      (edit_player players index up).1.get? j = players.get? j) ∧
    (∀ old, players.get? index.toNat = some old →
      (edit_player players index up).1.get? index.toNat =
        some { name := if up.name = "" then old.name else up.name
               team := if up.team = "" then old.team else up.team
               goals := up.goals
               assists := up.assists }) := by
  simp only [edit_player, if_pos h]
  refine ⟨listModify_length _ _ _, fun j hj => listModify_get?_ne _ _ _ _ hj,
    fun old hold => ?_⟩
  rw [listModify_get?_eq _ _ _ _ hold]
  simp [PlayerRecord.edit]

/-- Witness for C3: patching index 1 of a 2-element store with an empty name
(kept), a new team (overwritten) and zero goals (applied). -/
theorem C3_update_semantics_witness :
    ((0 : Int) ≤ 1 ∧ (1 : Int) <
      (([⟨"Alice", "Reds", 3, 1⟩, ⟨"Bob", "Blues", 5, 2⟩] : List PlayerRecord).length : Int)) ∧
    (edit_player [⟨"Alice", "Reds", 3, 1⟩, ⟨"Bob", "Blues", 5, 2⟩] 1
      ⟨"", "Greens", 0, 7⟩).1.get? 0 = some ⟨"Alice", "Reds", 3, 1⟩ ∧
    (edit_player [⟨"Alice", "Reds", 3, 1⟩, ⟨"Bob", "Blues", 5, 2⟩] 1
      ⟨"", "Greens", 0, 7⟩).1.get? 1 = some ⟨"Bob", "Greens", 0, 7⟩ :=
  ⟨by decide,
   by
    have h := (C3_update_semantics [⟨"Alice", "Reds", 3, 1⟩, ⟨"Bob", "Blues", 5, 2⟩] 1
      ⟨"", "Greens", 0, 7⟩ (by decide)).2.1 0 (by decide)
    simpa using h,
   by
    have h := (C3_update_semantics [⟨"Alice", "Reds", 3, 1⟩, ⟨"Bob", "Blues", 5, 2⟩] 1
      ⟨"", "Greens", 0, 7⟩ (by decide)).2.2 ⟨"Bob", "Blues", 5, 2⟩ (by decide)
    simpa using h⟩

/-- C9: `add` appends at the end (the new sequence is the old one plus the
record, so the length grows by one and earlier records keep their positions),
and `remove` at the newly added index — the old length — restores the prior
sequence exactly. -/
theorem C9_add_remove_inverse (s : List PlayerRecord) (r : PlayerRecord) :
    (add_player s r).1 = s ++ [r] ∧
    delete_player (add_player s r).1 (s.length : Int)
      = (s, "Player deleted successfully.") := by
  refine ⟨rfl, ?_⟩
  have hguard : (0 : Int) ≤ (s.length : Int) ∧
      (s.length : Int) < (((s ++ [r]).length : Nat) : Int) := by
    simp [List.length_append]
  simp only [delete_player, add_player]
  rw [if_pos hguard, Int.toNat_natCast, eraseIdx_append_length]

/-- C10: the singleton pattern.  A second `PlayerManager()` returns the
already-constructed instance without re-running `__init__` (the world state is
unchanged and the instance's players are returned as they are), and records
added through any reference survive every later construction. -/
theorem C10_singleton (w : PyWorld) :
    (∀ ps, w.pmInstance = some ps → constructPlayerManager w = (w, ps)) ∧
    constructPlayerManager (constructPlayerManager w).1
      = ((constructPlayerManager w).1, (constructPlayerManager w).2) ∧
    (∀ p, constructPlayerManager (worldAdd (constructPlayerManager w).1 p)
      = (worldAdd (constructPlayerManager w).1 p,
         (constructPlayerManager w).2 ++ [p])) := by
  refine ⟨fun ps hps => ?_, ?_, fun p => ?_⟩
  · simp [constructPlayerManager, hps]
  · cases hw : w.pmInstance <;> simp [constructPlayerManager, hw]
  · cases hw : w.pmInstance <;> simp [constructPlayerManager, worldAdd, hw, add_player]

/-- Witness for C10: constructing against a world that already holds one
record returns that same world and its stored record. -/
theorem C10_singleton_witness :
    (PyWorld.mk (some [⟨"Alice", "Reds", 3, 1⟩])).pmInstance
      = some [⟨"Alice", "Reds", 3, 1⟩] ∧
    constructPlayerManager (PyWorld.mk (some [⟨"Alice", "Reds", 3, 1⟩]))
      = (PyWorld.mk (some [⟨"Alice", "Reds", 3, 1⟩]), [⟨"Alice", "Reds", 3, 1⟩]) :=
  ⟨rfl, (C10_singleton (PyWorld.mk (some [⟨"Alice", "Reds", 3, 1⟩]))).1 _ rfl⟩

/-- C6: `filter_by_goal_range` returns a sequence that is sorted by goals per
the flag, is a permutation of exactly the in-range records, keeps ties in
their relative order from the filtered subset (each equal-goals fiber of the
result equals that of the filtered store, in order), and is empty whenever the
range is inverted.  The embedded operation only reads the store, so the
stored sequence is unchanged by construction. -/
theorem C6_filter_goal_range (players : List PlayerRecord)
    (min_goals max_goals : Int) (ascending : Bool) :
    (filter_by_goal_range players min_goals max_goals ascending).Pairwise
      (fun a b => if ascending then a.goals ≤ b.goals else b.goals ≤ a.goals) ∧
    (filter_by_goal_range players min_goals max_goals ascending).Perm
      (players.filter (fun p => decide (min_goals ≤ p.goals) && decide (p.goals ≤ max_goals))) ∧
    (∀ g : Int, (filter_by_goal_range players min_goals max_goals ascending).filter
        (fun p => decide (p.goals = g))
      = (players.filter
          (fun p => decide (min_goals ≤ p.goals) && decide (p.goals ≤ max_goals))).filter
          (fun p => decide (p.goals = g))) ∧
    (max_goals < min_goals →
      filter_by_goal_range players min_goals max_goals ascending = []) := by
  have htot : ∀ a b : PlayerRecord,
      (if ascending then decide (a.goals ≤ b.goals) else decide (b.goals ≤ a.goals)) = true ∨
      (if ascending then decide (b.goals ≤ a.goals) else decide (a.goals ≤ b.goals)) = true := by
    intro a b
    cases ascending <;> simp <;> exact Int.le_total _ _
  have htrans : ∀ a b c : PlayerRecord,
      (if ascending then decide (a.goals ≤ b.goals) else decide (b.goals ≤ a.goals)) = true →
      (if ascending then decide (b.goals ≤ c.goals) else decide (c.goals ≤ b.goals)) = true →
      (if ascending then decide (a.goals ≤ c.goals) else decide (c.goals ≤ a.goals)) = true := by
    intro a b c hab hbc
    cases ascending <;> simp at hab hbc ⊢ <;> omega
  refine ⟨?_, sortLe_perm _ _, fun g => ?_, fun hlt => ?_⟩
  · have h := sortLe_pairwise htot htrans
      (players.filter (fun p => decide (min_goals ≤ p.goals) && decide (p.goals ≤ max_goals)))
    refine h.imp ?_
    intro a b hab
    cases ascending <;> simpa using hab
  · exact sortLe_filter
      (fun a b ha hb => by
        simp at ha hb
        cases ascending <;> simp [ha, hb])
      _
  · have hnil : players.filter
        (fun p => decide (min_goals ≤ p.goals) && decide (p.goals ≤ max_goals)) = [] := by
      rw [List.filter_eq_nil_iff]
      intro p _
      simp
      omega
    simp only [filter_by_goal_range, hnil, sortLe]

/-- Witness for C6: an inverted range on a concrete store yields the empty
sequence. -/
theorem C6_filter_goal_range_witness :
    (2 : Int) < 6 ∧
    filter_by_goal_range [⟨"Alice", "Reds", 3, 1⟩, ⟨"Bob", "Blues", 5, 2⟩] 6 2 true = [] :=
  ⟨by decide,
   (C6_filter_goal_range [⟨"Alice", "Reds", 3, 1⟩, ⟨"Bob", "Blues", 5, 2⟩] 6 2 true).2.2.2
     (by decide)⟩

/-- C7: for a nonempty store the average equals the arithmetic mean of the
goals (characterised by: average times count equals the sum of goals); for the
empty store it is `0.0`; on the two-record example store it is `4.0`. -/
theorem C7_average_goals :
    (∀ players : List PlayerRecord, players ≠ [] →
      calculate_average_goals players * ((players.length : Nat) : Rat)
        = (((players.map (·.goals)).sum : Int) : Rat)) ∧
    calculate_average_goals [] = 0 ∧
    calculate_average_goals [⟨"Alice", "Reds", 3, 1⟩, ⟨"Bob", "Blues", 5, 2⟩] = 4 := by
  refine ⟨?_, rfl, ?_⟩
  case refine_2 =>
    simp only [calculate_average_goals]
    rw [if_neg (by decide)]
    norm_num [pyMean]
  intro players h
  simp only [calculate_average_goals, if_neg h, pyMean, List.length_map]
  rw [div_mul_cancel₀]
  have hlen : players.length ≠ 0 := by simpa [List.length_eq_zero] using h
  exact_mod_cast hlen

/-- Witness for C7: the example store is nonempty and its average, times its
count 2, is the goal sum 8 (so the average is 4). -/
theorem C7_average_goals_witness :
    ([⟨"Alice", "Reds", 3, 1⟩, ⟨"Bob", "Blues", 5, 2⟩] : List PlayerRecord) ≠ [] ∧
    calculate_average_goals [⟨"Alice", "Reds", 3, 1⟩, ⟨"Bob", "Blues", 5, 2⟩]
      * ((([⟨"Alice", "Reds", 3, 1⟩, ⟨"Bob", "Blues", 5, 2⟩] : List PlayerRecord).length : Nat) : Rat)
      = (((([⟨"Alice", "Reds", 3, 1⟩, ⟨"Bob", "Blues", 5, 2⟩] : List PlayerRecord).map (·.goals)).sum : Int) : Rat) :=
  ⟨by decide, C7_average_goals.1 [⟨"Alice", "Reds", 3, 1⟩, ⟨"Bob", "Blues", 5, 2⟩] (by decide)⟩

/-- C8: for a nonempty store the median of assists agrees with the standard
convention computed on any sorted rearrangement of the assists: the middle
element for an odd count, the average of the two central elements for an even
count; for the empty store it is `0.0`; on the two-record example store it is
`1.5`. -/
theorem C8_median_assists :
    (∀ (players : List PlayerRecord) (t : List Int), players ≠ [] →
      t.Perm (players.map (·.assists)) → t.Pairwise (· ≤ ·) →
      calculate_median_assists players =
        if t.length % 2 = 1 then ((listGetD t (t.length / 2) 0 : Int) : Rat)
        else ((listGetD t (t.length / 2 - 1) 0 + listGetD t (t.length / 2) 0 : Int) : Rat) / 2) ∧
    calculate_median_assists [] = 0 ∧
    calculate_median_assists [⟨"Alice", "Reds", 3, 1⟩, ⟨"Bob", "Blues", 5, 2⟩] = 3 / 2 := by
  refine ⟨?_, rfl, ?_⟩
  case refine_2 =>
    simp only [calculate_median_assists]
    rw [if_neg (by decide)]
    norm_num [pyMedian, sortLe, insertLe, listGetD]
  intro players t hne hperm hsort
  have htot : ∀ a b : Int, decide (a ≤ b) = true ∨ decide (b ≤ a) = true := by
    intro a b
    simpa using Int.le_total a b
  have htrans : ∀ a b c : Int,
      decide (a ≤ b) = true → decide (b ≤ c) = true → decide (a ≤ c) = true := by
    intro a b c hab hbc
    simp at hab hbc ⊢
    omega
  have hs : t = sortLe (fun a b => decide (a ≤ b)) (players.map (·.assists)) := by
    refine List.eq_of_perm_of_sorted
      (hperm.trans (sortLe_perm (fun a b => decide (a ≤ b)) (players.map (·.assists))).symm)
      hsort ?_
    refine (sortLe_pairwise htot htrans (players.map (·.assists))).imp ?_
    intro a b hab
    simpa using hab
  simp only [calculate_median_assists, if_neg hne, pyMedian]
  rw [← hs]

/-- Witness for C8: the example store with sorted assists `[1, 2]` gives the
even-count average `(1 + 2) / 2 = 1.5`. -/
theorem C8_median_assists_witness :
    ([⟨"Alice", "Reds", 3, 1⟩, ⟨"Bob", "Blues", 5, 2⟩] : List PlayerRecord) ≠ [] ∧
    ([1, 2] : List Int).Perm (([⟨"Alice", "Reds", 3, 1⟩, ⟨"Bob", "Blues", 5, 2⟩] : List PlayerRecord).map (·.assists)) ∧
    ([1, 2] : List Int).Pairwise (· ≤ ·) ∧
    calculate_median_assists [⟨"Alice", "Reds", 3, 1⟩, ⟨"Bob", "Blues", 5, 2⟩]
      = ((1 + 2 : Int) : Rat) / 2 :=
  ⟨by decide, by decide, by decide,
   by
    have h := C8_median_assists.1 [⟨"Alice", "Reds", 3, 1⟩, ⟨"Bob", "Blues", 5, 2⟩]
      [1, 2] (by decide) (by decide) (by decide)
    simpa [listGetD] using h⟩

/- ===== Round-trip lemmas for the csv codec ===== -/

/-- A character that needs no quoting: not the delimiter, quote character or a
lineterminator character. -/
def plainChar (c : Char) : Prop :=
  c ≠ ',' ∧ c ≠ '"' ∧ c ≠ '\r' ∧ c ≠ '\n'

theorem needsQuote_false_plain (f : List Char) (h : needsQuote f = false) :
    ∀ c ∈ f, plainChar c := by
  intro c hc
  simp only [needsQuote, List.any_eq_false] at h
  have hcc := h c hc
  simp only [Bool.or_eq_true, decide_eq_true_eq, not_or] at hcc
  exact ⟨hcc.1.1.1, hcc.1.1.2, hcc.1.2, hcc.2⟩

theorem parseAux_inFld_append (f : List Char) (h : ∀ c ∈ f, plainChar c) :
    ∀ rest field row acc, parseAux (f ++ rest) .inFld field row acc
      = parseAux rest .inFld (field ++ f) row acc := by
  induction f with
  | nil => intro rest field row acc; simp
  | cons c f' ih =>
    intro rest field row acc
    obtain ⟨h1, h2, h3, h4⟩ := h c (List.mem_cons_self c f')
    have hf' : ∀ x ∈ f', plainChar x := fun x hx => h x (List.mem_cons_of_mem c hx)
    simp only [List.cons_append, parseAux]
    rw [if_neg (by simp [h3, h4]), if_neg h1]
    conv_rhs => rw [List.append_cons]
    exact ih hf' rest (field ++ [c]) row acc

theorem parseAux_quoted_append (f : List Char) :
    ∀ rest field row acc,
      parseAux (escapeQuotes f ++ '"' :: rest) .inQuoted field row acc
        = parseAux rest .quoteInQuoted (field ++ f) row acc := by
  induction f with
  | nil =>
    intro rest field row acc
    have step : parseAux (escapeQuotes [] ++ '"' :: rest) .inQuoted field row acc
        = parseAux rest .quoteInQuoted field row acc := rfl
    rw [step, List.append_nil]
  | cons c f' ih =>
    intro rest field row acc
    by_cases hc : c = '"'
    · subst hc
      have step : parseAux (escapeQuotes ('"' :: f') ++ '"' :: rest) .inQuoted field row acc
          = parseAux (escapeQuotes f' ++ '"' :: rest) .inQuoted (field ++ ['"']) row acc := rfl
      rw [step, ih rest (field ++ ['"']) row acc, ← List.append_cons]
    · have hesc : escapeQuotes (c :: f') = c :: escapeQuotes f' := by
        simp [escapeQuotes, hc]
      rw [hesc]
      simp only [List.cons_append, parseAux]
      rw [if_neg hc]
      conv_rhs => rw [List.append_cons]
      exact ih rest (field ++ [c]) row acc

theorem ready_eq_startFld (c : Char) (cs : List Char) (acc : List (List String))
    (h3 : c ≠ '\r') (h4 : c ≠ '\n') :
    parseAux (c :: cs) .ready [] [] acc = parseAux (c :: cs) .startFld [] [] acc := by
  have hor : ¬(c = '\r' ∨ c = '\n') := by simp [h3, h4]
  simp only [parseAux]
  simp [hor]

theorem parseAux_field_comma (f : List Char) (rest : List Char) (row : List String)
    (acc : List (List String)) :
    parseAux (encodeField f ++ ',' :: rest) .startFld [] row acc
      = parseAux rest .startFld [] (row ++ [String.mk f]) acc := by
  by_cases hq : needsQuote f = true
  · rw [show encodeField f = '"' :: (escapeQuotes f ++ ['"']) from by
      simp [encodeField, hq]]
    have step1 : parseAux (('"' :: (escapeQuotes f ++ ['"'])) ++ ',' :: rest)
        .startFld [] row acc
        = parseAux ((escapeQuotes f ++ ['"']) ++ ',' :: rest) .inQuoted [] row acc := rfl
    rw [step1, List.append_assoc, List.singleton_append,
      parseAux_quoted_append f (',' :: rest) [] row acc, List.nil_append]
    rfl
  · have hplain := needsQuote_false_plain f (by simpa using hq)
    simp only [encodeField, if_neg hq]
    cases f with
    | nil => rfl
    | cons c f'' =>
      obtain ⟨h1, h2, h3, h4⟩ := hplain c (List.mem_cons_self c f'')
      have step : parseAux ((c :: f'') ++ ',' :: rest) .startFld [] row acc
          = parseAux (f'' ++ ',' :: rest) .inFld [c] row acc := by
        simp only [List.cons_append, parseAux]
        rw [if_neg (by simp [h3, h4]), if_neg h1, if_neg h2]
        rfl
      rw [step,
        parseAux_inFld_append f'' (fun x hx => hplain x (List.mem_cons_of_mem c hx))]
      rfl

theorem parseAux_field_crlf (f : List Char) (rest : List Char) (row : List String)
    (acc : List (List String)) :
    parseAux (encodeField f ++ '\r' :: '\n' :: rest) .startFld [] row acc
      = parseAux rest .ready [] [] (acc ++ [row ++ [String.mk f]]) := by
  by_cases hq : needsQuote f = true
  · rw [show encodeField f = '"' :: (escapeQuotes f ++ ['"']) from by
      simp [encodeField, hq]]
    have step1 : parseAux (('"' :: (escapeQuotes f ++ ['"'])) ++ '\r' :: '\n' :: rest)
        .startFld [] row acc
        = parseAux ((escapeQuotes f ++ ['"']) ++ '\r' :: '\n' :: rest) .inQuoted [] row acc := rfl
    rw [step1, List.append_assoc, List.singleton_append,
      parseAux_quoted_append f ('\r' :: '\n' :: rest) [] row acc, List.nil_append]
    rfl
  · have hplain := needsQuote_false_plain f (by simpa using hq)
    simp only [encodeField, if_neg hq]
    cases f with
    | nil => rfl
    | cons c f'' =>
      obtain ⟨h1, h2, h3, h4⟩ := hplain c (List.mem_cons_self c f'')
      have step : parseAux ((c :: f'') ++ '\r' :: '\n' :: rest) .startFld [] row acc
          = parseAux (f'' ++ '\r' :: '\n' :: rest) .inFld [c] row acc := by
        simp only [List.cons_append, parseAux]
        rw [if_neg (by simp [h3, h4]), if_neg h1, if_neg h2]
        rfl
      rw [step,
        parseAux_inFld_append f'' (fun x hx => hplain x (List.mem_cons_of_mem c hx))]
      rfl

theorem parseAux_fields (fs : List (List Char)) (hne : fs ≠ []) :
    ∀ rest row acc,
      parseAux (joinComma (fs.map encodeField) ++ '\r' :: '\n' :: rest) .startFld [] row acc
        = parseAux rest .ready [] [] (acc ++ [row ++ fs.map (fun f => String.mk f)]) := by
  induction fs with
  | nil => exact absurd rfl hne
  | cons f fs' ih =>
    intro rest row acc
    cases fs' with
    | nil =>
      simp only [List.map_cons, List.map_nil, joinComma]
      rw [parseAux_field_crlf]
    | cons f2 fs'' =>
      simp only [List.map_cons, joinComma, List.append_assoc, List.cons_append]
      rw [parseAux_field_comma f _ row acc]
      have := ih (List.cons_ne_nil f2 fs'') rest (row ++ [String.mk f]) acc
      simp only [List.map_cons] at this
      rw [this, List.append_assoc, List.singleton_append]

theorem joinComma_cons_ne_nil {x : List Char} (xs : List (List Char)) (c : Char)
    (t : List Char) (hx : x = c :: t) :
    ∃ u, joinComma (x :: xs) = c :: u := by
  cases xs with
  | nil => exact ⟨t, by simp [joinComma, hx]⟩
  | cons y ys => exact ⟨t ++ ',' :: joinComma (y :: ys), by simp [joinComma, hx]⟩

theorem joinComma_first (f : List Char) (fs' : List (List Char))
    (h : ¬(f = [] ∧ fs' = [])) :
    ∃ c cs, joinComma ((f :: fs').map encodeField) = c :: cs ∧ c ≠ '\r' ∧ c ≠ '\n' := by
  cases hf : f with
  | nil =>
    cases hfs : fs' with
    | nil => exact (h ⟨hf, hfs⟩).elim
    | cons g gs =>
      have henc : encodeField [] = [] := rfl
      refine ⟨',', joinComma ((g :: gs).map encodeField), ?_, by decide, by decide⟩
      simp [joinComma, henc, List.map_cons]
  | cons c0 f0 =>
    by_cases hq : needsQuote (c0 :: f0) = true
    · have henc : encodeField (c0 :: f0) = '"' :: (escapeQuotes (c0 :: f0) ++ ['"']) := by
        simp [encodeField, hq]
      obtain ⟨u, hu⟩ := joinComma_cons_ne_nil ((fs').map encodeField) '"'
        (escapeQuotes (c0 :: f0) ++ ['"']) henc
      exact ⟨'"', u, by simpa [List.map_cons] using hu, by decide, by decide⟩
    · have hplain := needsQuote_false_plain (c0 :: f0) (by simpa using hq)
      obtain ⟨_, _, h3, h4⟩ := hplain c0 (List.mem_cons_self c0 f0)
      have henc : encodeField (c0 :: f0) = c0 :: f0 := by
        simp [encodeField, hq]
      obtain ⟨u, hu⟩ := joinComma_cons_ne_nil ((fs').map encodeField) c0 f0 henc
      exact ⟨c0, u, by simpa [List.map_cons] using hu, h3, h4⟩

theorem parseAux_row (fs : List (List Char)) (hne : fs ≠ []) (rest : List Char)
    (acc : List (List String)) :
    parseAux (encodeRow fs ++ rest) .ready [] [] acc
      = parseAux rest .ready [] [] (acc ++ [fs.map (fun f => String.mk f)]) := by
  by_cases hsp : fs = [[]]
  · subst hsp
    simp only [encodeRow, if_pos rfl]
    rfl
  · simp only [encodeRow, if_neg hsp]
    cases fs with
    | nil => exact absurd rfl hne
    | cons f fs' =>
      obtain ⟨c, cs, hj, h3, h4⟩ := joinComma_first f fs' (by
        rintro ⟨rfl, rfl⟩
        exact hsp rfl)
      have hshape : (joinComma ((f :: fs').map encodeField) ++ ['\r', '\n']) ++ rest
          = c :: (cs ++ '\r' :: '\n' :: rest) := by
        rw [hj]
        simp
      rw [hshape, ready_eq_startFld c _ acc h3 h4, ← hshape]
      have hshape2 : (joinComma ((f :: fs').map encodeField) ++ ['\r', '\n']) ++ rest
          = joinComma ((f :: fs').map encodeField) ++ '\r' :: '\n' :: rest := by
        simp
      rw [hshape2, parseAux_fields (f :: fs') (List.cons_ne_nil f fs') rest [] acc,
        List.nil_append]

theorem csvWriteRows_parse (rows : List (List (List Char))) (h : ∀ r ∈ rows, r ≠ []) :
    ∀ acc, parseAux (csvWriteRows rows) .ready [] [] acc
      = (acc ++ rows.map (fun r => r.map (fun f => String.mk f)), false) := by
  induction rows with
  | nil => intro acc; simp [csvWriteRows, parseAux]
  | cons r rs ih =>
    intro acc
    simp only [csvWriteRows]
    rw [parseAux_row r (h r (List.mem_cons_self r rs)) (csvWriteRows rs) acc]
    rw [ih (fun x hx => h x (List.mem_cons_of_mem r hx)) (acc ++ [r.map fun f => String.mk f])]
    simp [List.append_assoc]

/-- Round trip of the csv codec itself: writing any list of nonempty rows and
parsing the file back yields exactly those rows, with no end-of-data error. -/
theorem csvWrite_parse (rows : List (List String)) (h : ∀ r ∈ rows, r ≠ []) :
    csvParse (csvWrite rows) = (rows, false) := by
  simp only [csvParse, csvWrite]
  rw [csvWriteRows_parse (rows.map (fun r => r.map String.data))
    (by
      intro r hr
      obtain ⟨r0, hr0, rfl⟩ := List.mem_map.1 hr
      have := h r0 hr0
      simpa using this)
    []]
  simp only [List.nil_append, List.map_map]
  congr 1
  have hcomp : ((fun r : List (List Char) => r.map (fun f => String.mk f)) ∘
      (fun r : List String => r.map String.data)) = id := by
    funext r
    simp only [Function.comp, List.map_map]
    have h2 : ((fun f => String.mk f) ∘ String.data) = id := by
      funext s
      cases s
      rfl
    rw [h2, List.map_id]
    rfl
  rw [hcomp, List.map_id]

/- ===== Round trip of `str(int)` through `int(str)` ===== -/

theorem digitChar_facts (d : Nat) (h : d < 10) :
    digitVal (Char.ofNat (48 + d)) = some d ∧
    48 ≤ (Char.ofNat (48 + d)).toNat ∧ (Char.ofNat (48 + d)).toNat ≤ 57 := by
  interval_cases d <;> refine ⟨by decide, by decide, by decide⟩

theorem natDigits_bounds (n : Nat) :
    ∀ c ∈ natDigits n, 48 ≤ c.toNat ∧ c.toNat ≤ 57 := by
  induction n using Nat.strong_induction_on with
  | _ n ih =>
    intro c hc
    rw [natDigits] at hc
    by_cases h : n < 10
    · rw [dif_pos h] at hc
      simp only [List.mem_singleton] at hc
      subst hc
      exact (digitChar_facts n h).2
    · rw [dif_neg h] at hc
      rcases List.mem_append.1 hc with h1 | h1
      · exact ih (n / 10) (Nat.div_lt_self (by omega) (by omega)) c h1
      · simp only [List.mem_singleton] at h1
        subst h1
        exact (digitChar_facts (n % 10) (Nat.mod_lt n (by omega))).2

theorem natDigits_ne_nil (n : Nat) : natDigits n ≠ [] := by
  rw [natDigits]
  by_cases h : n < 10
  · rw [dif_pos h]
    simp
  · rw [dif_neg h]
    simp

theorem digitsRun_natDigits (n : Nat) :
    ∀ rest, digitsRun (natDigits n ++ rest) = digitsAux n rest := by
  induction n using Nat.strong_induction_on with
  | _ n ih =>
    intro rest
    by_cases h : n < 10
    · rw [natDigits, dif_pos h, List.singleton_append]
      simp [digitsRun, (digitChar_facts n h).1]
    · rw [natDigits, dif_neg h, List.append_assoc, List.singleton_append,
        ih (n / 10) (Nat.div_lt_self (by omega) (by omega))]
      have hd := digitChar_facts (n % 10) (Nat.mod_lt n (by omega))
      have hne : Char.ofNat (48 + n % 10) ≠ '_' := by
        intro hcontr
        have h95 : (Char.ofNat (48 + n % 10)).toNat = 95 := by rw [hcontr]; decide
        have := hd.2.2
        omega
      rw [digitsAux.eq_def]
      simp only [if_neg hne, hd.1]
      have hdm : n / 10 * 10 + n % 10 = n := by omega
      rw [hdm]

theorem isPyWs_eq_false (c : Char) (h : 33 ≤ c.toNat) : isPyWs c = false := by
  simp only [isPyWs, Bool.or_eq_false_iff, decide_eq_false_iff_not]
  refine ⟨⟨⟨⟨⟨?_, ?_⟩, ?_⟩, ?_⟩, ?_⟩, ?_⟩ <;> (rintro rfl; exact absurd h (by decide))

theorem stripWs_id (l : List Char) (h : ∀ c ∈ l, isPyWs c = false) :
    stripWs l = l := by
  have aux : ∀ (l' : List Char), (∀ c ∈ l', isPyWs c = false) →
      l'.dropWhile isPyWs = l' := by
    intro l' hl'
    cases l' with
    | nil => rfl
    | cons a as => simp [List.dropWhile, hl' a (List.mem_cons_self a as)]
  simp only [stripWs]
  rw [aux l h, aux l.reverse (fun c hc => h c (List.mem_reverse.1 hc)), List.reverse_reverse]

theorem pyIntChars_intToChars (z : Int) : pyIntChars (intToChars z) = some z := by
  have hrun : ∀ m : Nat, digitsRun (natDigits m) = some m := by
    intro m
    have h0 := digitsRun_natDigits m []
    rw [List.append_nil] at h0
    rw [h0]
    rfl
  by_cases hz : z < 0
  · have hit : intToChars z = '-' :: natDigits z.natAbs := by
      simp [intToChars, hz]
    have hnw : ∀ c ∈ intToChars z, isPyWs c = false := by
      intro c hc
      rw [hit] at hc
      rcases List.mem_cons.1 hc with rfl | hc
      · decide
      · exact isPyWs_eq_false c (by have := (natDigits_bounds z.natAbs c hc).1; omega)
    have hstrip := stripWs_id (intToChars z) hnw
    have habs : (z.natAbs : Int) = -z := Int.ofNat_natAbs_of_nonpos (le_of_lt hz)
    rw [pyIntChars, hstrip, hit]
    simp [hrun z.natAbs, Int.ofNat_eq_natCast, habs]
  · have hit : intToChars z = natDigits z.natAbs := by
      simp [intToChars, hz]
    have hnw : ∀ c ∈ intToChars z, isPyWs c = false := by
      intro c hc
      rw [hit] at hc
      exact isPyWs_eq_false c (by have := (natDigits_bounds z.natAbs c hc).1; omega)
    have hstrip := stripWs_id (intToChars z) hnw
    obtain ⟨c, cs, hcons⟩ := List.exists_cons_of_ne_nil (natDigits_ne_nil z.natAbs)
    have hcb : 48 ≤ c.toNat ∧ c.toNat ≤ 57 :=
      natDigits_bounds z.natAbs c (by rw [hcons]; exact List.mem_cons_self c cs)
    have hplus : c ≠ '+' := by
      intro hcontr
      have : c.toNat = 43 := by rw [hcontr]; decide
      omega
    have hminus : c ≠ '-' := by
      intro hcontr
      have : c.toNat = 45 := by rw [hcontr]; decide
      omega
    have habs : (z.natAbs : Int) = z := Int.natAbs_of_nonneg (not_lt.1 hz)
    rw [pyIntChars, hstrip, hit, hcons]
    simp [if_neg hplus, if_neg hminus, ← hcons, hrun z.natAbs,
      Int.ofNat_eq_natCast, habs]

/- ===== Loader lemmas ===== -/

theorem parseRowRec_std (n t gs as : String) (g a : Int)
    (hg : pyIntStr gs = some g) (ha : pyIntStr as = some a) :
    parseRowRec headerFields [n, t, gs, as] = .ok ⟨n, t, g, a⟩ := by
  have e1 : getIntCell headerFields [n, t, gs, as] "Goals" = .ok g := by
    show (match pyIntStr gs with
      | some k => Except.ok k
      | none => Except.error LoadErr.valueError) = Except.ok g
    rw [hg]
  have e2 : getIntCell headerFields [n, t, gs, as] "Assists" = .ok a := by
    show (match pyIntStr as with
      | some k => Except.ok k
      | none => Except.error LoadErr.valueError) = Except.ok a
    rw [ha]
  simp only [parseRowRec, e1, e2]
  rfl

theorem parseRowRec_recordRow (p : PlayerRecord) :
    parseRowRec headerFields (recordRow p) = .ok p := by
  obtain ⟨n, t, g, a⟩ := p
  exact parseRowRec_std n t _ _ g a (pyIntChars_intToChars g) (pyIntChars_intToChars a)

theorem loadRowsAux_records (ps : List PlayerRecord) :
    ∀ acc, loadRowsAux headerFields (ps.map recordRow) acc = (acc ++ ps, none) := by
  induction ps with
  | nil => intro acc; simp [loadRowsAux]
  | cons p ps' ih =>
    intro acc
    simp only [List.map_cons, loadRowsAux]
    rw [if_neg (by simp [recordRow]), parseRowRec_recordRow p]
    show loadRowsAux headerFields (ps'.map recordRow) (acc ++ [p]) = (acc ++ p :: ps', none)
    rw [ih (acc ++ [p])]
    simp

/-- On success the reloaded sequence is exactly the saved one: the full
load-of-save round trip, for every prior store and every record list. -/
theorem load_save (prior players : List PlayerRecord) :
    load_from_csv prior (save_to_csv players) = (players, none) := by
  have hne : ∀ r ∈ headerFields :: players.map recordRow, r ≠ [] := by
    intro r hr
    rcases List.mem_cons.1 hr with rfl | hr
    · simp [headerFields]
    · obtain ⟨p, _, rfl⟩ := List.mem_map.1 hr
      simp [recordRow]
  have hp := csvWrite_parse (headerFields :: players.map recordRow) hne
  simp [load_from_csv, save_to_csv, hp, loadRowsAux_records players []]

theorem parseRowRec_nil_ne_ok (header : List String) (p : PlayerRecord) :
    parseRowRec header [] ≠ .ok p := by
  have hgen : ∀ k, dictGet header [] k = none ∨ dictGet header [] k = some none := by
    intro k
    induction header with
    | nil => left; rfl
    | cons hh hs ih =>
      simp only [dictGet, dictCells, lookupLast] at ih ⊢
      rcases ih with h | h
      · rw [h]
        by_cases hk : hh = k
        · right; simp [hk]
        · left; simp [hk]
      · rw [h]
        right
        rfl
  intro hok
  rcases hgen "Name" with h | h <;>
    simp [parseRowRec, getStrCell, h] at hok

theorem loadRowsAux_pre (hdr : List String) {pre : List (List String)}
    {recs : List PlayerRecord}
    (h : List.Forall₂ (fun r p => parseRowRec hdr r = .ok p) pre recs) :
    ∀ rest acc, loadRowsAux hdr (pre ++ rest) acc = loadRowsAux hdr rest (acc ++ recs) := by
  induction h with
  | nil => intro rest acc; simp
  | @cons r p pre' recs' hrp htail ih =>
    intro rest acc
    have hne : r ≠ [] := by
      rintro rfl
      exact parseRowRec_nil_ne_ok hdr p hrp
    simp only [List.cons_append, loadRowsAux, if_neg hne, hrp]
    rw [show acc ++ p :: recs' = (acc ++ [p]) ++ recs' from by simp]
    exact ih rest (acc ++ [p])

theorem forall₂_ne_nil (hdr : List String) {pre : List (List String)}
    {recs : List PlayerRecord}
    (h : List.Forall₂ (fun r p => parseRowRec hdr r = .ok p) pre recs) :
    ∀ r ∈ pre, r ≠ [] := by
  induction h with
  | nil => intro r hr; exact absurd hr (List.not_mem_nil r)
  | @cons r p pre' recs' hrp htail ih =>
    intro x hx
    rcases List.mem_cons.1 hx with rfl | hx
    · rintro rfl
      exact parseRowRec_nil_ne_ok hdr p hrp
    · exact ih x hx

/- ===== Claim theorems: the codec ===== -/

/-- C4: the full round trip.  For every store contents — names and teams may
contain commas, quotes, or any other characters — saving and reloading yields
exactly the same sequence of records, in order, with goals/assists written as
decimal text and parsed back to the same integers; no error is signalled, and
whatever the store held before the reload is replaced. -/
theorem C4_round_trip (prior players : List PlayerRecord) :
    load_from_csv prior (save_to_csv players) = (players, none) :=
  load_save prior players

/-- C1 counterexample.  Reading a file whose second data row has the
non-numeric Goals value "x" fails (a `ValueError`), but the store does NOT
retain its prior contents: it ends up holding exactly the one record parsed
before the failing row.  The claim's atomicity is violated. -/
theorem C1_not_atomic_counterexample :
    load_from_csv [⟨"Carl", "Greens", 7, 4⟩]
      "Name,Team,Goals,Assists\r\nAlice,Reds,3,1\r\nBob,Blues,x,2\r\n".data
      = ([⟨"Alice", "Reds", 3, 1⟩], some .valueError) ∧
    ([⟨"Alice", "Reds", 3, 1⟩] : List PlayerRecord) ≠ [⟨"Carl", "Greens", 7, 4⟩] := by
  constructor
  · rfl
  · decide

/-- C1 (amended): `load_from_csv` first discards the prior contents
unconditionally (the result never depends on them), and when a data row fails
— missing required column or unparseable Goals/Assists — the raised error
leaves the store holding exactly the records of the rows before the failing
one, not the prior contents; on success the parsed sequence replaces the store
(the round trip `load_save`). -/
theorem C1_load_clears_then_appends :
    (∀ (prior : List PlayerRecord) (file : List Char),
      load_from_csv prior file = load_from_csv [] file) ∧
    (∀ (prior : List PlayerRecord) (hdr bad : List String)
        (pre post : List (List String)) (recs : List PlayerRecord) (e : LoadErr),
      hdr ≠ [] → (∀ r ∈ post, r ≠ []) →
      List.Forall₂ (fun r p => parseRowRec hdr r = .ok p) pre recs →
      bad ≠ [] → parseRowRec hdr bad = .error e →
      load_from_csv prior (csvWrite (hdr :: (pre ++ bad :: post))) = (recs, some e)) := by
  refine ⟨fun _ _ => rfl, ?_⟩
  intro prior hdr bad pre post recs e hhdr hpost hpre hbadne hbad
  have hrows : ∀ r ∈ hdr :: (pre ++ bad :: post), r ≠ [] := by
    intro r hr
    rcases List.mem_cons.1 hr with rfl | hr
    · exact hhdr
    rcases List.mem_append.1 hr with h | h
    · exact forall₂_ne_nil hdr hpre r h
    rcases List.mem_cons.1 h with rfl | h
    · exact hbadne
    · exact hpost r h
  have hp := csvWrite_parse _ hrows
  have hload : loadRowsAux hdr (pre ++ bad :: post) [] = (recs, some e) := by
    rw [loadRowsAux_pre hdr hpre (bad :: post) []]
    simp only [List.nil_append, loadRowsAux, if_neg hbadne, hbad]
  simp [load_from_csv, hp, hload]

/-- Witness for C1: the two-data-row file of the scenario, built by the
writer from the same rows, fails on the second row and leaves exactly the
first row's record in the store. -/
theorem C1_load_clears_then_appends_witness :
    (["Name", "Team", "Goals", "Assists"] : List String) ≠ [] ∧
    parseRowRec ["Name", "Team", "Goals", "Assists"] ["Bob", "Blues", "x", "2"]
      = .error .valueError ∧
    load_from_csv [⟨"Carl", "Greens", 7, 4⟩]
      (csvWrite [["Name", "Team", "Goals", "Assists"], ["Alice", "Reds", "3", "1"],
        ["Bob", "Blues", "x", "2"]])
      = ([⟨"Alice", "Reds", 3, 1⟩], some .valueError) :=
  ⟨by decide, by rfl,
   C1_load_clears_then_appends.2 [⟨"Carl", "Greens", 7, 4⟩]
     ["Name", "Team", "Goals", "Assists"] ["Bob", "Blues", "x", "2"]
     [["Alice", "Reds", "3", "1"]] [] [⟨"Alice", "Reds", 3, 1⟩] .valueError
     (by decide) (by simp) (List.Forall₂.cons (by rfl) List.Forall₂.nil)
     (by decide) (by rfl)⟩

theorem parseRowRec_rev (n t gs as : String) (g a : Int)
    (hg : pyIntStr gs = some g) (ha : pyIntStr as = some a) :
    parseRowRec ["Team", "Name", "Goals", "Assists"] [t, n, gs, as] = .ok ⟨n, t, g, a⟩ := by
  have e1 : getIntCell ["Team", "Name", "Goals", "Assists"] [t, n, gs, as] "Goals"
      = .ok g := by
    show (match pyIntStr gs with
      | some k => Except.ok k
      | none => Except.error LoadErr.valueError) = Except.ok g
    rw [hg]
  have e2 : getIntCell ["Team", "Name", "Goals", "Assists"] [t, n, gs, as] "Assists"
      = .ok a := by
    show (match pyIntStr as with
      | some k => Except.ok k
      | none => Except.error LoadErr.valueError) = Except.ok a
    rw [ha]
  simp only [parseRowRec, e1, e2]
  rfl

/-- C5 counterexample.  A file whose header row is `Team,Name,Goals,Assists`
— the required names in a different order — is accepted by `load_from_csv`
(fields are matched by name, not position), contradicting "failing on any file
whose header deviates" from the fixed order. -/
theorem C5_reordered_header_counterexample :
    (csvParse "Team,Name,Goals,Assists\r\nReds,Alice,3,1\r\n".data).1.head?
      = some ["Team", "Name", "Goals", "Assists"] ∧
    (["Team", "Name", "Goals", "Assists"] : List String) ≠ headerFields ∧
    load_from_csv [] "Team,Name,Goals,Assists\r\nReds,Alice,3,1\r\n".data
      = ([⟨"Alice", "Reds", 3, 1⟩], none) := by
  refine ⟨by rfl, by decide, by rfl⟩

/-- C5 (amended): the writer always emits the exact header
`Name,Team,Goals,Assists` as the first line of the file; the reader, however,
does not require that exact order — it takes the file's first row as the
column names and succeeds whenever every data row supplies parseable values
under the four required names (for example, the reordered header
`Team,Name,Goals,Assists` is accepted, with fields matched by name), and it
fails (KeyError) when a required name is absent from the header. -/
theorem C5_header_semantics :
    (∀ players : List PlayerRecord,
      (save_to_csv players).take 25 = "Name,Team,Goals,Assists\r\n".data) ∧
    (∀ (prior : List PlayerRecord) (n t : String) (g a : Int),
      load_from_csv prior
        (csvWrite [["Team", "Name", "Goals", "Assists"],
          [t, n, String.mk (intToChars g), String.mk (intToChars a)]])
        = ([⟨n, t, g, a⟩], none)) ∧
    load_from_csv [] "Name,Team,Assists\r\nAlice,Reds,3\r\n".data
      = ([], some .keyError) := by
  refine ⟨?_, ?_, by rfl⟩
  · intro players
    have hform : save_to_csv players
        = "Name,Team,Goals,Assists\r\n".data
          ++ csvWriteRows ((players.map recordRow).map (fun r => r.map String.data)) := by
      simp [save_to_csv, csvWrite, csvWriteRows]
      rfl
    rw [hform,
      show (25 : Nat) = ("Name,Team,Goals,Assists\r\n".data).length from by decide,
      List.take_left]
  · intro prior n t g a
    have hrows : ∀ r ∈ [(["Team", "Name", "Goals", "Assists"] : List String),
        [t, n, String.mk (intToChars g), String.mk (intToChars a)]], r ≠ [] := by
      intro r hr
      rcases List.mem_cons.1 hr with rfl | hr
      · simp
      rcases List.mem_cons.1 hr with rfl | hr
      · simp
      · exact absurd hr (List.not_mem_nil r)
    have hp := csvWrite_parse _ hrows
    have hrow := parseRowRec_rev n t (String.mk (intToChars g)) (String.mk (intToChars a))
      g a (pyIntChars_intToChars g) (pyIntChars_intToChars a)
    simp [load_from_csv, hp, loadRowsAux, hrow]
